import Mathlib

/-! # BDSMLoader: dependency-aware module loading (`src/main.cpp`)

A shallow embedding of `loadMods`, `loadModsFromDirectory` and the `Executor`
constructor of `src/main.cpp`, together with theorems about the order of load
attempts, the registry `mods`, and the invocation of the `mod_init` and
`mod_exec` hooks.

Modelling conventions.

* `std::set<fs::path>` is the list of its elements in iteration order, which has
  no duplicates; `count` is membership, `erase` removes the element, `begin()` is
  the head and `insert` keeps the list ordered and duplicate free.
* `std::set<void (*)()>` is a list of entry-point addresses; it is only ever
  queried with `count` and extended with `insert`.
* The C++ standard library and `libdl` are parameters, collected in `Env`:
  `std::filesystem` queries, `getDependencies` (declared in `dep.h`), `dlopen`
  and `dlsym`.
* A hook is an opaque function: calling it is recorded as an event and does not
  change the loader state. `dlopen`, `dlsym` and `getDependencies` answer the
  same way each time they are asked.
* Everything observable that the loader does (a `dlopen` call, the diagnostic
  of a failed load, a call of a hook) is appended to `Globals.trace`, in the
  order in which it happens.
* The recursion of `loadMods` is bounded by a depth budget (`fuel`); running out
  of budget is `none`. The theorems show that a budget above the size of the
  pending set always suffices and that a larger budget gives the same result.
-/

namespace BDSMLoader

/-- A loaded-module handle: the `void *` returned by `dlopen`. -/
abbrev Handle := Nat

/-- An entry-point address: the `void (*)()` returned by `dlsym`. -/
abbrev FnPtr := Nat

/-- Observable actions of the loader, in program order. -/
inductive Event (Path : Type) where
  /-- The call `dlopen(path.c_str(), RTLD_NOW)` at line 33, announced by `Loading mod`. -/
  | load (path : Path)
  /-- The `Failed to load` diagnostic at line 35. -/
  | fail (path : Path)
  /-- The call `mod_init()` at line 41, made while loading `path`. -/
  | init (path : Path) (f : FnPtr)
  /-- The call `mod_exec()` at line 63, made for registry entry `mod`. -/
  | exec (mod : Handle) (f : FnPtr)
  deriving DecidableEq, Repr

/-- The library functions the loader calls. None of them is defined in
`src/main.cpp`: they come from `<filesystem>`, `<dlfcn.h>` and `dep.h`. -/
structure Env (Path : Type) where
  /-- Conversion of a string literal to `fs::path`. -/
  ofString : String → Path
  /-- The function `getDependencies(path)` of `dep.h`. -/
  getDependencies : Path → List String
  /-- The member `path.parent_path()`. -/
  parent_path : Path → Path
  /-- The operator `name /= dep`. -/
  append : Path → String → Path
  /-- The member `path.extension()`. -/
  extension : Path → String
  /-- The ordering of `std::set<fs::path>`. -/
  pathLt : Path → Path → Bool
  /-- The query `fs::exists(base)`. -/
  fsExists : Path → Bool
  /-- The query `fs::is_directory(base)`. -/
  is_directory : Path → Bool
  /-- The query `is_regular_file()` (used by `addToTpa`, not by the module scan). -/
  is_regular_file : Path → Bool
  /-- The paths enumerated by
  `fs::recursive_directory_iterator{base, follow_directory_symlink}`. -/
  recursive_directory_iterator : Path → List Path
  /-- The call `dlopen(path, RTLD_NOW)`; `none` is the null handle. -/
  dlopen : Path → Option Handle
  /-- The call `dlsym(mod, name)`; `none` is the null pointer. -/
  dlsym : Handle → String → Option FnPtr
  /-- The file name of `fs::canonical("/proc/self/exe")`. -/
  exeName : String

/-- The process-wide state of the loader: the registry `mods` (line 18), the
function-local static `set` of `loadMods` (line 21), and the event log. -/
structure Globals (Path : Type) where
  mods : List Handle
  set : List FnPtr
  trace : List (Event Path)
  deriving DecidableEq, Repr

variable {Path : Type} [DecidableEq Path]

/-- The call `others.erase(name)` on a `std::set`. -/
def erase (name : Path) (others : List Path) : List Path :=
  others.filter (fun p => decide (p ≠ name))

/-- Insertion of `p` in front of the first element that `lt` places after it. -/
def insertSorted (lt : Path → Path → Bool) (p : Path) : List Path → List Path
  | [] => [p]
  | q :: qs => if lt p q then p :: q :: qs else q :: insertSorted lt p qs

/-- The call `modsToLoad.insert(p)` on a `std::set` ordered by `lt`: nothing
changes when `p` is already an element. -/
def setInsert (lt : Path → Path → Bool) (p : Path) (set : List Path) : List Path :=
  if p ∈ set then set else insertSorted lt p set

/-- The resolved dependency paths of `path`: `path.parent_path() / dep` for each
`dep` of `getDependencies(path)` (lines 22 to 25). -/
def resolvedDeps (env : Env Path) (path : Path) : List Path :=
  (env.getDependencies path).map (fun dep => env.append (env.parent_path path) dep)

/-- Lines 32 to 43 of `loadMods`: the load attempt of `path` itself, the
registration of the handle and the call of `mod_init`. -/
def loadSelf (env : Env Path) (path : Path) (g : Globals Path) : Globals Path :=
  let g1 : Globals Path := { g with trace := g.trace ++ [Event.load path] }
  match env.dlopen path with
  | none => { g1 with trace := g1.trace ++ [Event.fail path] }
  | some mod =>
    let g2 : Globals Path := { g1 with mods := g1.mods ++ [mod] }
    match env.dlsym mod "mod_init" with
    | none => g2
    | some mod_init =>
      if mod_init ∈ g2.set then g2
      else { g2 with trace := g2.trace ++ [Event.init path mod_init], set := mod_init :: g2.set }

/-- The `for (auto const &dep : deps)` loop of `loadMods` (lines 23 to 31), with
the recursive call abstracted as `recurse`. -/
def forDeps (env : Env Path)
    (recurse : Path → List Path → Globals Path → Option (List Path × Globals Path))
    (path : Path) : List String → List Path → Globals Path → Option (List Path × Globals Path)
  | [], others, g => some (others, g)
  | dep :: deps, others, g =>
    let name := env.append (env.parent_path path) dep
    if name ∈ others then
      match recurse name (erase name others) g with
      | none => none
      | some (others1, g1) => forDeps env recurse path deps (erase name others1) g1
    else forDeps env recurse path deps others g

/-- The function `loadMods(path, others)` (lines 20 to 44). The first argument
bounds the depth of the recursion; `others` is passed by reference in the
source and is returned here. -/
def loadMods (env : Env Path) :
    Nat → Path → List Path → Globals Path → Option (List Path × Globals Path)
  | 0 => fun _ _ _ => none
  | fuel + 1 => fun path others g =>
    match forDeps env (loadMods env fuel) path (env.getDependencies path) others g with
    | none => none
    | some (others1, g1) => some (others1, loadSelf env path g1)

/-- The `while (!modsToLoad.empty())` loop of `loadModsFromDirectory` (lines 52
to 58): `path` is `*modsToLoad.begin()` and `rest` is the set after
`modsToLoad.erase(it)`. `depth` bounds the recursion of each `loadMods` call, the
second argument bounds the number of iterations. -/
def drain (env : Env Path) (depth : Nat) :
    Nat → List Path → Globals Path → Option (Globals Path)
  | _, [], g => some g
  | 0, _ :: _, _ => none
  | n + 1, path :: rest, g =>
    match loadMods env depth path rest g with
    | none => none
    | some (others1, g1) => drain env depth n others1 g1

/-- The `for (auto mod : mods)` loop of `loadModsFromDirectory` (lines 60 to 66);
`set` is the local set declared at line 59. -/
def execLoop (env : Env Path) : List Handle → List FnPtr → Globals Path → Globals Path
  | [], _, g => g
  | mod :: rest, set, g =>
    match env.dlsym mod "mod_exec" with
    | none => execLoop env rest set g
    | some mod_exec =>
      if mod_exec ∈ set then execLoop env rest set g
      else execLoop env rest (mod_exec :: set)
        { g with trace := g.trace ++ [Event.exec mod mod_exec] }

/-- The candidate set `modsToLoad` built at lines 48 to 51. -/
def scanCandidates (env : Env Path) (base : Path) : List Path :=
  (env.recursive_directory_iterator base).foldl
    (fun modsToLoad mod =>
      if env.extension mod = ".so" then setInsert env.pathLt mod modsToLoad else modsToLoad)
    []

/-- The function `loadModsFromDirectory(base)` (lines 46 to 68). -/
def loadModsFromDirectory (env : Env Path) (fuel : Nat) (base : Path) (g : Globals Path) :
    Option (Globals Path) :=
  if env.fsExists base && env.is_directory base then
    match drain env fuel fuel (scanCandidates env base) g with
    | none => none
    | some g1 => some (execLoop env g1.mods [] g1)
  else some g

/-- The state of the loader at process start. -/
def Globals.initial : Globals Path := { mods := [], set := [], trace := [] }

/-- The constructor of `Executor` (lines 170 to 177), up to the two scans. The
calls that follow (`getCLR`, the managed `Init` delegate) do not touch the
loader state. -/
def Executor (env : Env Path) (fuel : Nat) : Option (Globals Path) :=
  if env.exeName ≠ "bedrock_server" then some Globals.initial
  else
    match loadModsFromDirectory env fuel (env.ofString "core") Globals.initial with
    | none => none
    | some g1 => loadModsFromDirectory env fuel (env.ofString "mods") g1
/-! ## Specification vocabulary -/

/-- The effect of the load attempts of `order`, made one after the other. -/
def runOrder (env : Env Path) (order : List Path) (g : Globals Path) : Globals Path :=
  order.foldl (fun g p => loadSelf env p g) g

/-- The dependency relation over the candidate set `C`: `d` and `m` are candidates
and `d` is one of the resolved dependencies of `m`. -/
def depRel (env : Env Path) (C : List Path) (d m : Path) : Prop :=
  d ∈ C ∧ m ∈ C ∧ d ∈ resolvedDeps env m

/-- The dependency relation over `C` has no cycle. -/
def Acyclic (env : Env Path) (C : List Path) : Prop :=
  ∀ x, ¬ Relation.TransGen (depRel env C) x x

/-- What the loop over the dependencies of `path` achieves: `order` lists the
load attempts it makes and `others'` is the pending set it leaves. -/
structure VisitDeps (env : Env Path) (C : List Path) (path : Path) (deps : List String)
    (others others' order : List Path) : Prop where
  sub : others'.Sublist others
  gone : ∀ p ∈ order, p ∉ others'
  kept : ∀ p ∈ others, p ∈ others' ∨ p ∈ order
  reach : ∀ p ∈ order, p ∈ others ∧ Relation.TransGen (depRel env C) p path
  nodup : order.Nodup
  closed : ∀ a ∈ order, ∀ d ∈ resolvedDeps env a, d ∉ others'
  topo : Acyclic env C → order.Pairwise (fun a b => b ∉ resolvedDeps env a)
  done : ∀ dep ∈ deps, env.append (env.parent_path path) dep ∉ others'

/-- What one call `loadMods(path, others)` achieves. -/
structure Visit (env : Env Path) (C : List Path) (path : Path)
    (others others' order : List Path) : Prop where
  sub : others'.Sublist others
  gone : path ∉ others → ∀ p ∈ order, p ∉ others'
  kept : ∀ p ∈ others, p ∈ others' ∨ p ∈ order
  reach : ∀ p ∈ order, p = path ∨ (p ∈ others ∧ Relation.TransGen (depRel env C) p path)
  nodup : path ∉ others → order.Nodup
  closed : ∀ a ∈ order, ∀ d ∈ resolvedDeps env a, d ∉ others'
  topo : Acyclic env C → order.Pairwise (fun a b => b ∉ resolvedDeps env a)
  self : path ∈ order

/-- The events that `loadSelf` appends when the init set is `set`. -/
def selfEvents (env : Env Path) (path : Path) (set : List FnPtr) : List (Event Path) :=
  Event.load path ::
    match env.dlopen path with
    | none => [Event.fail path]
    | some mod =>
      match env.dlsym mod "mod_init" with
      | none => []
      | some mod_init => if mod_init ∈ set then [] else [Event.init path mod_init]

/-- The init set that `loadSelf` leaves when it starts from `set`. -/
def selfSet (env : Env Path) (path : Path) (set : List FnPtr) : List FnPtr :=
  match env.dlopen path with
  | none => set
  | some mod =>
    match env.dlsym mod "mod_init" with
    | none => set
    | some mod_init => if mod_init ∈ set then set else mod_init :: set

/-- The events of the load attempts of `order`, starting from init set `set`. -/
def orderEvents (env : Env Path) : List Path → List FnPtr → List (Event Path)
  | [], _ => []
  | p :: ps, set => selfEvents env p set ++ orderEvents env ps (selfSet env p set)

/-- The init set after the load attempts of `order`, starting from `set`. -/
def orderSet (env : Env Path) : List Path → List FnPtr → List FnPtr
  | [], set => set
  | p :: ps, set => orderSet env ps (selfSet env p set)

/-- The events that `execLoop` appends. -/
def execEvents (env : Env Path) : List Handle → List FnPtr → List (Event Path)
  | [], _ => []
  | mod :: rest, set =>
    match env.dlsym mod "mod_exec" with
    | none => execEvents env rest set
    | some mod_exec =>
      if mod_exec ∈ set then execEvents env rest set
      else Event.exec mod mod_exec :: execEvents env rest (mod_exec :: set)

/-- The paths of the `dlopen` calls of a trace, in order. -/
def loadOrder : List (Event Path) → List Path
  | [] => []
  | Event.load p :: t => p :: loadOrder t
  | _ :: t => loadOrder t

/-- The entry points called as `mod_init` in a trace, in order. -/
def initCalls : List (Event Path) → List FnPtr
  | [] => []
  | Event.init _ f :: t => f :: initCalls t
  | _ :: t => initCalls t

/-- The entry points called as `mod_exec` in a trace, in order. -/
def execCalls : List (Event Path) → List FnPtr
  | [] => []
  | Event.exec _ f :: t => f :: execCalls t
  | _ :: t => execCalls t
/-! ## Concrete worlds

A small file system with string paths, used to evaluate the loader on concrete
inputs. Paths are POSIX strings without `.`/`..` components and without repeated
or trailing separators; the string functions below follow `std::filesystem` on
such paths, and the paths of the worlds are all of the form `core/X.so`. -/

/-- The part of a path before its last `/` (`parent_path`); the parent of a
file directly under the root is the root `/`. -/
def demoParent (p : String) : String :=
  let upto := p.data.reverse.dropWhile (fun c => c != '/')
  if upto = ['/'] then "/" else String.mk ((upto.drop 1).reverse)

/-- The part of a path after its last `/` (`filename`). -/
def demoFilename (p : String) : String :=
  String.mk ((p.data.reverse.takeWhile (fun c => c != '/')).reverse)

/-- The extension of a path: its file name from the last `.` on, and empty when
the file name has no dot, has its only dot in front, or is `.` or `..`. -/
def demoExtension (p : String) : String :=
  let name := (demoFilename p).data
  let ext := (name.reverse.takeWhile (fun c => c != '.')).reverse
  if name = ['.'] ∨ name = ['.', '.'] then ""
  else if ext.length = name.length then ""
  else if ext.length + 1 = name.length then ""
  else String.mk ('.' :: ext)

/-- The components of a path: the pieces between its `/` separators. -/
def demoComponents : List Char → List (List Char)
  | [] => [[]]
  | c :: cs =>
    match demoComponents cs with
    | [] => [[c]]
    | x :: xs => if c = '/' then [] :: x :: xs else (c :: x) :: xs

/-- Lexicographic comparison of the characters of two path components. -/
def demoLtChars : List Char → List Char → Bool
  | _, [] => false
  | [], _ :: _ => true
  | a :: as, b :: bs =>
    if a.toNat < b.toNat then true
    else if a.toNat = b.toNat then demoLtChars as bs
    else false

/-- Lexicographic comparison of two lists of path components. -/
def demoLtComponents : List (List Char) → List (List Char) → Bool
  | _, [] => false
  | [], _ :: _ => true
  | a :: as, b :: bs =>
    if demoLtChars a b then true
    else if a = b then demoLtComponents as bs
    else false

/-- The ordering of paths (`fs::path::compare`): a relative path comes before an
absolute one, and otherwise the paths are compared component by component. -/
def demoLt (p q : List Char) : Bool :=
  if p.head? = some '/' ∧ q.head? ≠ some '/' then false
  else if p.head? ≠ some '/' ∧ q.head? = some '/' then true
  else demoLtComponents (demoComponents p) (demoComponents q)

/-- The path `p / dep`: `dep` itself when it is absolute or `p` is empty, and no
separator is added after a `p` that ends in one. -/
def demoAppend (p : String) (dep : String) : String :=
  if dep.data.head? = some '/' then dep
  else if p = "" then dep
  else if p.data.getLast? = some '/' then p ++ dep
  else p ++ "/" ++ dep

/-- A concrete world: a directory listing, the dependency lists of the module
files, the files `dlopen` can load and the symbols they export. -/
structure DemoWorld where
  /-- Each entry of the file system with its kind: `true` for a regular file,
  `false` for a directory. Entries are listed in enumeration order. -/
  entries : List (String × Bool)
  /-- The dependency identifiers of each module file. -/
  deps : List (String × List String)
  /-- The files that `dlopen` loads, with the handle it returns. -/
  libs : List (String × Handle)
  /-- The exported symbols: handle, symbol name, address. -/
  syms : List (Handle × String × FnPtr)
  /-- The file name of the running executable. -/
  exe : String

/-- The library functions as they behave in a concrete world. -/
def DemoWorld.env (w : DemoWorld) : Env String where
  ofString := id
  getDependencies := fun p => ((w.deps.find? (fun e => e.1 == p)).map (fun e => e.2)).getD []
  parent_path := demoParent
  append := demoAppend
  extension := demoExtension
  pathLt := fun a b => demoLt a.data b.data
  fsExists := fun p => w.entries.any (fun e => e.1 == p)
  is_directory := fun p => w.entries.any (fun e => e.1 == p && !e.2)
  is_regular_file := fun p => w.entries.any (fun e => e.1 == p && e.2)
  recursive_directory_iterator := fun base =>
    (w.entries.filter (fun e => (base.data ++ ['/']).isPrefixOf e.1.data)).map (fun e => e.1)
  dlopen := fun p => (w.libs.find? (fun e => e.1 == p)).map (fun e => e.2)
  dlsym := fun h s => (w.syms.find? (fun e => e.1 == h && e.2.1 == s)).map (fun e => e.2.2)
  exeName := w.exe

/-- The scenario `A`(deps: `B`), `B`(deps: none), `C`(deps: `B`), enumerated in
the order `C`, `A`, `B`. `A` and `C` export the same `mod_init` address and the
same `mod_exec` address. The directory `mods` exists and is empty. -/
def scenarioWorld : DemoWorld where
  entries := [("core", false), ("core/C.so", true), ("core/A.so", true),
    ("core/B.so", true), ("mods", false)]
  deps := [("core/A.so", ["B.so"]), ("core/C.so", ["B.so"])]
  libs := [("core/A.so", 1), ("core/B.so", 2), ("core/C.so", 3)]
  syms := [(1, "mod_init", 101), (2, "mod_init", 102), (3, "mod_init", 101),
    (1, "mod_exec", 201), (2, "mod_exec", 202), (3, "mod_exec", 201)]
  exe := "bedrock_server"

/-- Two modules that depend on each other: `A`(deps: `B`), `B`(deps: `A`). -/
def cyclicWorld : DemoWorld where
  entries := [("core", false), ("core/A.so", true), ("core/B.so", true)]
  deps := [("core/A.so", ["B.so"]), ("core/B.so", ["A.so"])]
  libs := [("core/A.so", 1), ("core/B.so", 2)]
  syms := [(1, "mod_init", 101), (2, "mod_init", 102)]
  exe := "bedrock_server"

/-- A world with failures: `A` depends on `B`, whose `dlopen` fails, and on
`Z`, which does not exist; `core/x.so` is a directory. -/
def failingWorld : DemoWorld where
  entries := [("core", false), ("core/A.so", true), ("core/B.so", true),
    ("core/x.so", false), ("core/x.so/readme.txt", true)]
  deps := [("core/A.so", ["B.so", "Z.so"])]
  libs := [("core/A.so", 1)]
  syms := [(1, "mod_init", 101), (1, "mod_exec", 201)]
  exe := "bedrock_server"

/-- A diamond: `A`(deps: `B`, `C`, and the undiscovered `Z`), `B`(deps: `D`),
`C`(deps: `D`), `D`(deps: none). -/
def diamondWorld : DemoWorld where
  entries := [("core", false), ("core/A.so", true), ("core/B.so", true),
    ("core/C.so", true), ("core/D.so", true)]
  deps := [("core/A.so", ["B.so", "C.so", "Z.so"]), ("core/B.so", ["D.so"]),
    ("core/C.so", ["D.so"])]
  libs := [("core/A.so", 1), ("core/B.so", 2), ("core/C.so", 3), ("core/D.so", 4)]
  syms := []
  exe := "bedrock_server"

/-- One module that exports its hooks under the names `module_init` and
`module_exec`. -/
def moduleNamedWorld : DemoWorld where
  entries := [("core", false), ("core/A.so", true)]
  deps := []
  libs := [("core/A.so", 1)]
  syms := [(1, "module_init", 101), (1, "module_exec", 201)]
  exe := "bedrock_server"

/-- A rank for the dependency graphs of the worlds: the number of declared
dependencies of a module. -/
def demoRank (w : DemoWorld) (p : String) : Nat :=
  (w.env.getDependencies p).length
/-! # Theorems -/

/-! ## Basic facts about the set operations -/

theorem mem_erase_iff {name p : Path} {others : List Path} :
    p ∈ erase name others ↔ p ∈ others ∧ p ≠ name := by
  simp [erase]

theorem erase_sublist (name : Path) (others : List Path) :
    (erase name others).Sublist others := by
  unfold erase
  exact List.filter_sublist others

theorem length_erase_lt {name : Path} {others : List Path} (h : name ∈ others) :
    (erase name others).length < others.length := by
  unfold erase
  exact List.length_filter_lt_length_iff_exists.mpr ⟨name, h, by simp⟩

omit [DecidableEq Path] in
theorem runOrder_append (env : Env Path) (o1 o2 : List Path) (g : Globals Path) :
    runOrder env (o1 ++ o2) g = runOrder env o2 (runOrder env o1 g) := by
  simp [runOrder, List.foldl_append]

/-! ## The recursion of `loadMods` -/

theorem forDeps_spec (env : Env Path) (C : List Path) (fuel : Nat)
    (recurse : Path → List Path → Globals Path → Option (List Path × Globals Path))
    (hrec : ∀ path others g, others.length < fuel → (∀ p ∈ others, p ∈ C) → path ∈ C →
      ∃ others' order, recurse path others g = some (others', runOrder env order g) ∧
        Visit env C path others others' order)
    (path : Path) (hpath : path ∈ C) :
    ∀ (deps : List String) (others : List Path) (g : Globals Path),
      others.length < fuel + 1 → (∀ p ∈ others, p ∈ C) →
      (∀ dep ∈ deps, dep ∈ env.getDependencies path) →
      ∃ others' order, forDeps env recurse path deps others g
          = some (others', runOrder env order g) ∧
        VisitDeps env C path deps others others' order := by
  intro deps
  induction deps with
  | nil =>
    intro others g _ _ _
    refine ⟨others, [], rfl, ?_⟩
    exact
      { sub := List.Sublist.refl _
        gone := by simp
        kept := fun p hp => Or.inl hp
        reach := by simp
        nodup := List.nodup_nil
        closed := by simp
        topo := fun _ => List.Pairwise.nil
        done := by simp }
  | cons dep deps ih =>
    intro others g hlen hC hdeps
    have hdeps' : ∀ d ∈ deps, d ∈ env.getDependencies path :=
      fun d hd => hdeps d (List.mem_cons_of_mem _ hd)
    by_cases hmem : env.append (env.parent_path path) dep ∈ others
    · -- the dependency is pending: it is erased and loaded first
      have hlt := length_erase_lt hmem
      have hC1 : ∀ p ∈ erase (env.append (env.parent_path path) dep) others, p ∈ C :=
        fun p hp => hC p (mem_erase_iff.mp hp).1
      obtain ⟨others1, order1, e1, v1⟩ :=
        hrec (env.append (env.parent_path path) dep)
          (erase (env.append (env.parent_path path) dep) others) g (by omega) hC1 (hC _ hmem)
      have hsub1 : (erase (env.append (env.parent_path path) dep) others1).Sublist others :=
        ((erase_sublist _ _).trans v1.sub).trans (erase_sublist _ _)
      have hlen1 : (erase (env.append (env.parent_path path) dep) others1).length < fuel + 1 :=
        lt_of_le_of_lt hsub1.length_le hlen
      have hC2 : ∀ p ∈ erase (env.append (env.parent_path path) dep) others1, p ∈ C :=
        fun p hp => hC p (hsub1.subset hp)
      obtain ⟨others2, order2, e2, v2⟩ :=
        ih (erase (env.append (env.parent_path path) dep) others1) (runOrder env order1 g)
          hlen1 hC2 hdeps'
      have hedge : depRel env C (env.append (env.parent_path path) dep) path :=
        ⟨hC _ hmem, hpath, List.mem_map.mpr ⟨dep, hdeps dep (List.mem_cons_self _ _), rfl⟩⟩
      refine ⟨others2, order1 ++ order2, ?_, ?_⟩
      · simp only [forDeps, hmem, if_true, e1, e2, runOrder_append]
      · have hsub2 : others2.Sublist others1 := v2.sub.trans (erase_sublist _ _)
        have hgone1 : ∀ p ∈ order1, p ∉ others1 :=
          v1.gone (fun hc => (mem_erase_iff.mp hc).2 rfl)
        exact
          { sub := v2.sub.trans hsub1
            gone := by
              intro p hp
              rcases List.mem_append.mp hp with h | h
              · exact fun hc => hgone1 p h (hsub2.subset hc)
              · exact v2.gone p h
            kept := by
              intro p hp
              by_cases hpn : p = env.append (env.parent_path path) dep
              · exact Or.inr (List.mem_append.mpr (Or.inl (hpn ▸ v1.self)))
              · rcases v1.kept p (mem_erase_iff.mpr ⟨hp, hpn⟩) with h | h
                · rcases v2.kept p (mem_erase_iff.mpr ⟨h, hpn⟩) with h2 | h2
                  · exact Or.inl h2
                  · exact Or.inr (List.mem_append.mpr (Or.inr h2))
                · exact Or.inr (List.mem_append.mpr (Or.inl h))
            reach := by
              intro p hp
              rcases List.mem_append.mp hp with h | h
              · rcases v1.reach p h with h1 | ⟨h1, h2⟩
                · subst h1
                  exact ⟨hmem, Relation.TransGen.single hedge⟩
                · exact ⟨(mem_erase_iff.mp h1).1, h2.tail hedge⟩
              · exact ⟨hsub1.subset (v2.reach p h).1, (v2.reach p h).2⟩
            nodup := by
              refine List.Nodup.append (v1.nodup (fun hc => (mem_erase_iff.mp hc).2 rfl))
                v2.nodup ?_
              intro p h1 h2
              exact hgone1 p h1 ((erase_sublist _ _).subset (v2.reach p h2).1)
            closed := by
              intro a ha d hd
              rcases List.mem_append.mp ha with h | h
              · exact fun hc => v1.closed a h d hd (hsub2.subset hc)
              · exact v2.closed a h d hd
            topo := by
              intro hac
              refine List.pairwise_append.mpr ⟨v1.topo hac, v2.topo hac, ?_⟩
              intro a ha b hb hc
              exact v1.closed a ha b hc ((erase_sublist _ _).subset (v2.reach b hb).1)
            done := by
              intro d hd
              rcases List.mem_cons.mp hd with h | h
              · subst h
                exact fun hc => (mem_erase_iff.mp (v2.sub.subset hc)).2 rfl
              · exact v2.done d h }
    · -- the dependency is not pending: it is skipped
      obtain ⟨others2, order2, e2, v2⟩ := ih others g hlen hC hdeps'
      refine ⟨others2, order2, ?_, ?_⟩
      · simp only [forDeps, hmem, if_false, e2]
      · exact
          { sub := v2.sub
            gone := v2.gone
            kept := v2.kept
            reach := v2.reach
            nodup := v2.nodup
            closed := v2.closed
            topo := v2.topo
            done := by
              intro d hd
              rcases List.mem_cons.mp hd with h | h
              · subst h
                exact fun hc => hmem (v2.sub.subset hc)
              · exact v2.done d h }

theorem loadMods_spec (env : Env Path) (C : List Path) :
    ∀ (fuel : Nat) (path : Path) (others : List Path) (g : Globals Path),
      others.length < fuel → (∀ p ∈ others, p ∈ C) → path ∈ C →
      ∃ others' order, loadMods env fuel path others g = some (others', runOrder env order g) ∧
        Visit env C path others others' order := by
  intro fuel
  induction fuel with
  | zero => intro _ others _ h; exact absurd h (Nat.not_lt_zero _)
  | succ fuel ih =>
    intro path others g hlen hC hpath
    obtain ⟨others1, order1, e1, v1⟩ :=
      forDeps_spec env C fuel (loadMods env fuel) ih path hpath (env.getDependencies path)
        others g hlen hC (fun _ h => h)
    refine ⟨others1, order1 ++ [path], ?_, ?_⟩
    · simp only [loadMods, e1, runOrder_append]
      rfl
    · exact
        { sub := v1.sub
          gone := by
            intro hn p hp
            rcases List.mem_append.mp hp with h | h
            · exact v1.gone p h
            · rw [List.mem_singleton.mp h]
              exact fun hc => hn (v1.sub.subset hc)
          kept := fun p hp => (v1.kept p hp).imp id (fun h => List.mem_append.mpr (Or.inl h))
          reach := by
            intro p hp
            rcases List.mem_append.mp hp with h | h
            · exact Or.inr (v1.reach p h)
            · exact Or.inl (List.mem_singleton.mp h)
          nodup := by
            intro hn
            refine List.Nodup.append v1.nodup (List.nodup_singleton _) ?_
            intro p h1 h2
            rw [List.mem_singleton.mp h2] at h1
            exact hn (v1.reach _ h1).1
          closed := by
            intro a ha d hd
            rcases List.mem_append.mp ha with h | h
            · exact v1.closed a h d hd
            · rw [List.mem_singleton.mp h] at hd
              obtain ⟨dep, hdep, rfl⟩ := List.mem_map.mp hd
              exact v1.done dep hdep
          topo := by
            intro hac
            refine List.pairwise_append.mpr ⟨v1.topo hac, List.pairwise_singleton _ _, ?_⟩
            intro a ha b hb hc
            rw [List.mem_singleton.mp hb] at hc
            have hr := v1.reach a ha
            exact hac a (hr.2.tail ⟨hpath, hC a hr.1, hc⟩)
          self := List.mem_append.mpr (Or.inr (List.mem_singleton_self _)) }

theorem drain_spec (env : Env Path) (C : List Path) (depth : Nat) :
    ∀ (n : Nat) (others : List Path) (g : Globals Path),
      others.length < depth → others.length ≤ n → (∀ p ∈ others, p ∈ C) →
      ∃ order, drain env depth n others g = some (runOrder env order g) ∧
        (others.Nodup → order.Nodup) ∧ (∀ p, p ∈ order ↔ p ∈ others) ∧
        (Acyclic env C → order.Pairwise (fun a b => b ∉ resolvedDeps env a)) := by
  intro n
  induction n with
  | zero =>
    intro others g _ hn _
    have : others = [] := List.length_eq_zero.mp (Nat.le_zero.mp hn)
    subst this
    exact ⟨[], by cases depth <;> rfl, fun _ => List.nodup_nil, by simp,
      fun _ => List.Pairwise.nil⟩
  | succ n ih =>
    intro others g hd hn hC
    cases others with
    | nil => exact ⟨[], rfl, fun _ => List.nodup_nil, by simp, fun _ => List.Pairwise.nil⟩
    | cons path rest =>
      simp only [List.length_cons] at hd hn
      obtain ⟨others1, order1, e1, v1⟩ :=
        loadMods_spec env C depth path rest g (by omega)
          (fun p hp => hC p (List.mem_cons_of_mem _ hp))
          (hC path (List.mem_cons_self _ _))
      have hlen1 : others1.length ≤ rest.length := v1.sub.length_le
      obtain ⟨order2, e2, nd2, mem2, topo2⟩ :=
        ih others1 (runOrder env order1 g) (by omega) (by omega)
          (fun p hp => hC p (List.mem_cons_of_mem _ (v1.sub.subset hp)))
      refine ⟨order1 ++ order2, ?_, ?_, ?_, ?_⟩
      · simp only [drain, e1, e2, runOrder_append]
      · intro hnd
        have hnot : path ∉ rest := (List.nodup_cons.mp hnd).1
        refine List.Nodup.append (v1.nodup hnot)
          (nd2 ((List.nodup_cons.mp hnd).2.sublist v1.sub)) ?_
        intro p h1 h2
        exact v1.gone hnot p h1 ((mem2 p).mp h2)
      · intro p
        constructor
        · intro hp
          rcases List.mem_append.mp hp with h | h
          · rcases v1.reach p h with h1 | ⟨h1, _⟩
            · exact h1 ▸ List.mem_cons_self _ _
            · exact List.mem_cons_of_mem _ h1
          · exact List.mem_cons_of_mem _ (v1.sub.subset ((mem2 p).mp h))
        · intro hp
          rcases List.mem_cons.mp hp with h | h
          · exact List.mem_append.mpr (Or.inl (h ▸ v1.self))
          · rcases v1.kept p h with h' | h'
            · exact List.mem_append.mpr (Or.inr ((mem2 p).mpr h'))
            · exact List.mem_append.mpr (Or.inl h')
      · intro hac
        refine List.pairwise_append.mpr ⟨v1.topo hac, topo2 hac, ?_⟩
        intro a ha b hb hc
        exact v1.closed a ha b hc ((mem2 b).mp hb)

/-! ## The events of a sequence of load attempts -/

omit [DecidableEq Path] in
theorem loadSelf_eq (env : Env Path) (path : Path) (g : Globals Path) :
    loadSelf env path g =
      { mods := g.mods ++ (env.dlopen path).toList
        set := selfSet env path g.set
        trace := g.trace ++ selfEvents env path g.set } := by
  unfold loadSelf selfSet selfEvents
  cases env.dlopen path with
  | none => simp
  | some mod =>
    cases hs : env.dlsym mod "mod_init" with
    | none => simp [hs]
    | some f => by_cases hf : f ∈ g.set <;> simp [hs, hf]

omit [DecidableEq Path] in
theorem runOrder_eq (env : Env Path) (order : List Path) :
    ∀ g : Globals Path, runOrder env order g =
      { mods := g.mods ++ order.filterMap env.dlopen
        set := orderSet env order g.set
        trace := g.trace ++ orderEvents env order g.set } := by
  induction order with
  | nil => intro g; simp [runOrder, orderSet, orderEvents]
  | cons p ps ih =>
    intro g
    have h : runOrder env (p :: ps) g = runOrder env ps (loadSelf env p g) := rfl
    rw [h, ih, loadSelf_eq]
    cases hp : env.dlopen p <;> simp [orderSet, orderEvents, List.filterMap_cons, hp]

omit [DecidableEq Path] in
theorem execLoop_eq (env : Env Path) (mods : List Handle) :
    ∀ (set : List FnPtr) (g : Globals Path), execLoop env mods set g =
      { g with trace := g.trace ++ execEvents env mods set } := by
  induction mods with
  | nil => intro set g; simp [execLoop, execEvents]
  | cons mod rest ih =>
    intro set g
    unfold execLoop execEvents
    cases hs : env.dlsym mod "mod_exec" with
    | none => simp [hs, ih]
    | some f => by_cases hf : f ∈ set <;> simp [hs, hf, ih]

/-! ## Lists of events -/

theorem append_eq_split {α : Type} {l1 l2 pre post : List α} {e : α}
    (h : l1 ++ l2 = pre ++ e :: post) :
    (∃ post1, l1 = pre ++ e :: post1 ∧ post = post1 ++ l2) ∨
      (∃ pre2, pre = l1 ++ pre2 ∧ l2 = pre2 ++ e :: post) := by
  induction l1 generalizing pre with
  | nil => exact Or.inr ⟨pre, rfl, h⟩
  | cons x xs ih =>
    cases pre with
    | nil =>
      simp only [List.cons_append, List.nil_append, List.cons.injEq] at h
      exact Or.inl ⟨xs, by rw [h.1]; rfl, h.2.symm⟩
    | cons y ys =>
      simp only [List.cons_append, List.cons.injEq] at h
      rcases ih h.2 with ⟨post1, h1, h2⟩ | ⟨pre2, h1, h2⟩
      · exact Or.inl ⟨post1, by rw [h.1, h1]; rfl, h2⟩
      · exact Or.inr ⟨pre2, by rw [h.1, h1]; rfl, h2⟩

omit [DecidableEq Path] in
theorem selfEvents_split {env : Env Path} {m : Path} {s : List FnPtr}
    {a b : List (Event Path)} {e : Event Path} (h : selfEvents env m s = a ++ e :: b) :
    (e = Event.load m ∧ a = []) ∨
      (a = [Event.load m] ∧ b = [] ∧
        ((e = Event.fail m ∧ env.dlopen m = none) ∨
          ∃ mod f, e = Event.init m f ∧ env.dlopen m = some mod ∧
            env.dlsym mod "mod_init" = some f ∧ f ∉ s)) := by
  unfold selfEvents at h
  cases a with
  | nil =>
    simp only [List.nil_append, List.cons.injEq] at h
    exact Or.inl ⟨h.1.symm, rfl⟩
  | cons x a' =>
    simp only [List.cons_append, List.cons.injEq] at h
    obtain ⟨hx, ht⟩ := h
    right
    cases hd : env.dlopen m with
    | none =>
      simp only [hd] at ht
      cases a' with
      | nil =>
        simp only [List.nil_append, List.cons.injEq] at ht
        exact ⟨by rw [hx], ht.2.symm, Or.inl ⟨ht.1.symm, rfl⟩⟩
      | cons y a'' => simp at ht
    | some mod =>
      simp only [hd] at ht
      cases hs : env.dlsym mod "mod_init" with
      | none => simp [hs] at ht
      | some f =>
        simp only [hs] at ht
        by_cases hf : f ∈ s
        · simp [hf] at ht
        · simp only [hf, if_false] at ht
          cases a' with
          | nil =>
            simp only [List.nil_append, List.cons.injEq] at ht
            exact ⟨by rw [hx], ht.2.symm, Or.inr ⟨mod, f, ht.1.symm, rfl, hs, hf⟩⟩
          | cons y a'' => simp at ht

omit [DecidableEq Path] in
theorem orderSet_append (env : Env Path) (o1 o2 : List Path) :
    ∀ s, orderSet env (o1 ++ o2) s = orderSet env o2 (orderSet env o1 s) := by
  induction o1 with
  | nil => intro s; rfl
  | cons p ps ih => intro s; simp [orderSet, ih]

omit [DecidableEq Path] in
theorem orderEvents_append (env : Env Path) (o1 o2 : List Path) :
    ∀ s, orderEvents env (o1 ++ o2) s
      = orderEvents env o1 s ++ orderEvents env o2 (orderSet env o1 s) := by
  induction o1 with
  | nil => intro s; rfl
  | cons p ps ih => intro s; simp [orderEvents, orderSet, ih]

omit [DecidableEq Path] in
theorem orderEvents_split {env : Env Path} {order : List Path} :
    ∀ {s : List FnPtr} {pre post : List (Event Path)} {e : Event Path},
      orderEvents env order s = pre ++ e :: post →
      ∃ o1 m o2 a b, order = o1 ++ m :: o2 ∧
        selfEvents env m (orderSet env o1 s) = a ++ e :: b ∧
        pre = orderEvents env o1 s ++ a := by
  induction order with
  | nil => intro s pre post e h; simp [orderEvents] at h
  | cons p ps ih =>
    intro s pre post e h
    simp only [orderEvents] at h
    rcases append_eq_split h with ⟨post1, h1, _⟩ | ⟨pre2, h1, h2⟩
    · exact ⟨[], p, ps, pre, post1, rfl, h1, by simp [orderEvents]⟩
    · obtain ⟨o1, m, o2, a, b, ho, hs, hp⟩ := ih h2
      refine ⟨p :: o1, m, o2, a, b, by rw [ho]; rfl, hs, ?_⟩
      rw [h1, hp]
      simp [orderEvents]

omit [DecidableEq Path] in
theorem mem_selfEvents_load {env : Env Path} {p q : Path} {s : List FnPtr} :
    Event.load q ∈ selfEvents env p s ↔ q = p := by
  unfold selfEvents
  cases env.dlopen p with
  | none => simp
  | some mod =>
    cases hs : env.dlsym mod "mod_init" with
    | none => simp [hs]
    | some f => by_cases hf : f ∈ s <;> simp [hs, hf]

omit [DecidableEq Path] in
theorem mem_orderEvents_load {env : Env Path} {order : List Path} {q : Path} :
    ∀ {s : List FnPtr}, Event.load q ∈ orderEvents env order s ↔ q ∈ order := by
  induction order with
  | nil => intro s; simp [orderEvents]
  | cons p ps ih => intro s; simp [orderEvents, mem_selfEvents_load, ih]

omit [DecidableEq Path] in
theorem mem_selfSet {env : Env Path} {p : Path} {s : List FnPtr} {f : FnPtr} :
    f ∈ selfSet env p s ↔
      f ∈ s ∨ ∃ mod, env.dlopen p = some mod ∧ env.dlsym mod "mod_init" = some f := by
  unfold selfSet
  cases env.dlopen p with
  | none => simp
  | some mod =>
    cases hs : env.dlsym mod "mod_init" with
    | none => simp [hs]
    | some k =>
      by_cases hk : k ∈ s
      · simp only [hs, hk, if_true, Option.some.injEq, exists_eq_left']
        constructor
        · exact fun h => Or.inl h
        · rintro (h | h)
          · exact h
          · exact h ▸ hk
      · simp only [hs, hk, if_false, List.mem_cons, Option.some.injEq, exists_eq_left']
        constructor
        · rintro (h | h)
          · exact Or.inr h.symm
          · exact Or.inl h
        · rintro (h | h)
          · exact Or.inr h
          · exact Or.inl h.symm

omit [DecidableEq Path] in
theorem mem_orderSet {env : Env Path} {order : List Path} {f : FnPtr} :
    ∀ {s : List FnPtr}, f ∈ orderSet env order s ↔
      f ∈ s ∨ ∃ p ∈ order, ∃ mod, env.dlopen p = some mod ∧
        env.dlsym mod "mod_init" = some f := by
  induction order with
  | nil => intro s; simp [orderSet]
  | cons p ps ih =>
    intro s
    simp only [orderSet, ih, mem_selfSet, List.mem_cons, exists_eq_or_imp, or_assoc]

omit [DecidableEq Path] in
theorem initCalls_append (t1 t2 : List (Event Path)) :
    initCalls (t1 ++ t2) = initCalls t1 ++ initCalls t2 := by
  induction t1 with
  | nil => rfl
  | cons e t ih => cases e <;> simp [initCalls, ih]

omit [DecidableEq Path] in
theorem execCalls_append (t1 t2 : List (Event Path)) :
    execCalls (t1 ++ t2) = execCalls t1 ++ execCalls t2 := by
  induction t1 with
  | nil => rfl
  | cons e t ih => cases e <;> simp [execCalls, ih]

omit [DecidableEq Path] in
theorem loadOrder_append (t1 t2 : List (Event Path)) :
    loadOrder (t1 ++ t2) = loadOrder t1 ++ loadOrder t2 := by
  induction t1 with
  | nil => rfl
  | cons e t ih => cases e <;> simp [loadOrder, ih]

omit [DecidableEq Path] in
theorem mem_initCalls {t : List (Event Path)} {f : FnPtr} :
    f ∈ initCalls t ↔ ∃ q, Event.init q f ∈ t := by
  induction t with
  | nil => simp [initCalls]
  | cons e t ih =>
    cases e with
    | init p k =>
      simp only [initCalls, List.mem_cons, ih, Event.init.injEq]
      constructor
      · rintro (h | ⟨q, h⟩)
        · exact ⟨p, Or.inl ⟨rfl, h⟩⟩
        · exact ⟨q, Or.inr h⟩
      · rintro ⟨q, ⟨_, h⟩ | h⟩
        · exact Or.inl h
        · exact Or.inr ⟨q, h⟩
    | load p => simp [initCalls, ih]
    | fail p => simp [initCalls, ih]
    | exec mod k => simp [initCalls, ih]

omit [DecidableEq Path] in
theorem mem_execCalls {t : List (Event Path)} {f : FnPtr} :
    f ∈ execCalls t ↔ ∃ mod, Event.exec mod f ∈ t := by
  induction t with
  | nil => simp [execCalls]
  | cons e t ih =>
    cases e with
    | exec m k =>
      simp only [execCalls, List.mem_cons, ih, Event.exec.injEq]
      constructor
      · rintro (h | ⟨q, h⟩)
        · exact ⟨m, Or.inl ⟨rfl, h⟩⟩
        · exact ⟨q, Or.inr h⟩
      · rintro ⟨q, ⟨_, h⟩ | h⟩
        · exact Or.inl h
        · exact Or.inr ⟨q, h⟩
    | load p => simp [execCalls, ih]
    | fail p => simp [execCalls, ih]
    | init p k => simp [execCalls, ih]

theorem count_load (t : List (Event Path)) (p : Path) :
    t.count (Event.load p) = (loadOrder t).count p := by
  induction t with
  | nil => rfl
  | cons e t ih =>
    cases e with
    | load q =>
      by_cases hq : q = p
      · subst hq; simp [loadOrder, ih]
      · have hne : (Event.load q : Event Path) ≠ Event.load p := fun hc => hq (by injection hc)
        simp [loadOrder, List.count_cons, ih, hq, hne]
    | fail q => simp [loadOrder, List.count_cons, ih]
    | init q f => simp [loadOrder, List.count_cons, ih]
    | exec mod f => simp [loadOrder, List.count_cons, ih]

omit [DecidableEq Path] in
theorem loadOrder_selfEvents (env : Env Path) (p : Path) (s : List FnPtr) :
    loadOrder (selfEvents env p s) = [p] := by
  unfold selfEvents
  cases env.dlopen p with
  | none => simp [loadOrder]
  | some mod =>
    cases hs : env.dlsym mod "mod_init" with
    | none => simp [hs, loadOrder]
    | some f => by_cases hf : f ∈ s <;> simp [hs, hf, loadOrder]

omit [DecidableEq Path] in
theorem loadOrder_orderEvents (env : Env Path) (order : List Path) :
    ∀ s, loadOrder (orderEvents env order s) = order := by
  induction order with
  | nil => intro s; rfl
  | cons p ps ih => intro s; simp [orderEvents, loadOrder_append, loadOrder_selfEvents, ih]

omit [DecidableEq Path] in
theorem initCalls_selfEvents (env : Env Path) (p : Path) (s : List FnPtr) :
    (initCalls (selfEvents env p s) = [] ∧ selfSet env p s = s) ∨
      ∃ f, initCalls (selfEvents env p s) = [f] ∧ selfSet env p s = f :: s ∧ f ∉ s := by
  unfold selfEvents selfSet
  cases env.dlopen p with
  | none => simp [initCalls]
  | some mod =>
    cases hs : env.dlsym mod "mod_init" with
    | none => simp [hs, initCalls]
    | some f => by_cases hf : f ∈ s <;> simp [hs, hf, initCalls]

omit [DecidableEq Path] in
theorem initCalls_orderEvents (env : Env Path) (order : List Path) :
    ∀ s, (initCalls (orderEvents env order s)).Nodup ∧
      (∀ f ∈ initCalls (orderEvents env order s), f ∉ s) ∧
      (∀ f ∈ orderSet env order s, f ∈ s ∨ f ∈ initCalls (orderEvents env order s)) := by
  induction order with
  | nil => intro s; simp [orderEvents, initCalls, orderSet]
  | cons p ps ih =>
    intro s
    obtain ⟨nd, dis, cov⟩ := ih (selfSet env p s)
    simp only [orderEvents, orderSet, initCalls_append]
    rcases initCalls_selfEvents env p s with ⟨h1, h2⟩ | ⟨f, h1, h2, h3⟩
    · rw [h1, h2]
      rw [h2] at nd dis cov
      simpa using ⟨nd, dis, cov⟩
    · rw [h1, h2]
      rw [h2] at nd dis cov
      refine ⟨?_, ?_, ?_⟩
      · simp only [List.singleton_append, List.nodup_cons]
        exact ⟨fun hc => dis f hc (List.mem_cons_self _ _), nd⟩
      · intro k hk
        simp only [List.singleton_append, List.mem_cons] at hk
        rcases hk with hk | hk
        · exact hk ▸ h3
        · exact fun hc => dis k hk (List.mem_cons_of_mem _ hc)
      · intro k hk
        rcases cov k hk with hc | hc
        · rcases List.mem_cons.mp hc with hc | hc
          · exact Or.inr (by simp [hc])
          · exact Or.inl hc
        · exact Or.inr (by simp [hc])

/-! ## The events of the exec phase -/

omit [DecidableEq Path] in
theorem mem_execEvents {env : Env Path} {mods : List Handle} {e : Event Path} :
    ∀ {s : List FnPtr}, e ∈ execEvents env mods s →
      ∃ mod f, e = Event.exec mod f ∧ mod ∈ mods ∧
        env.dlsym mod "mod_exec" = some f ∧ f ∉ s := by
  induction mods with
  | nil => intro s h; simp [execEvents] at h
  | cons mod rest ih =>
    intro s h
    unfold execEvents at h
    cases hs : env.dlsym mod "mod_exec" with
    | none =>
      rw [hs] at h
      obtain ⟨m, f, h1, h2, h3, h4⟩ := ih h
      exact ⟨m, f, h1, List.mem_cons_of_mem _ h2, h3, h4⟩
    | some k =>
      rw [hs] at h
      by_cases hk : k ∈ s
      · simp only [hk, if_true] at h
        obtain ⟨m, f, h1, h2, h3, h4⟩ := ih h
        exact ⟨m, f, h1, List.mem_cons_of_mem _ h2, h3, h4⟩
      · simp only [hk, if_false, List.mem_cons] at h
        rcases h with h | h
        · exact ⟨mod, k, h, List.mem_cons_self _ _, hs, hk⟩
        · obtain ⟨m, f, h1, h2, h3, h4⟩ := ih h
          exact ⟨m, f, h1, List.mem_cons_of_mem _ h2, h3,
            fun hc => h4 (List.mem_cons_of_mem _ hc)⟩

omit [DecidableEq Path] in
theorem execCalls_execEvents (env : Env Path) (mods : List Handle) :
    ∀ s, (execCalls (execEvents env mods s : List (Event Path))).Nodup ∧
      (∀ f ∈ execCalls (execEvents env mods s : List (Event Path)), f ∉ s) ∧
      (∀ mod ∈ mods, ∀ f, env.dlsym mod "mod_exec" = some f →
        f ∈ s ∨ f ∈ execCalls (execEvents env mods s : List (Event Path))) := by
  induction mods with
  | nil => intro s; simp [execEvents, execCalls]
  | cons mod rest ih =>
    intro s
    unfold execEvents
    cases hs : env.dlsym mod "mod_exec" with
    | none =>
      obtain ⟨nd, dis, cov⟩ := ih s
      refine ⟨nd, dis, ?_⟩
      intro m hm f hf
      rcases List.mem_cons.mp hm with h | h
      · rw [h, hs] at hf; exact absurd hf (by simp)
      · exact cov m h f hf
    | some k =>
      by_cases hk : k ∈ s
      · simp only [hk, if_true]
        obtain ⟨nd, dis, cov⟩ := ih s
        refine ⟨nd, dis, ?_⟩
        intro m hm f hf
        rcases List.mem_cons.mp hm with h | h
        · rw [h, hs] at hf
          exact Or.inl (by injection hf with hf; exact hf ▸ hk)
        · exact cov m h f hf
      · simp only [hk, if_false, execCalls]
        obtain ⟨nd, dis, cov⟩ := ih (k :: s)
        refine ⟨?_, ?_, ?_⟩
        · exact List.nodup_cons.mpr ⟨fun hc => dis k hc (List.mem_cons_self _ _), nd⟩
        · intro f hf
          rcases List.mem_cons.mp hf with h | h
          · exact h ▸ hk
          · exact fun hc => dis f h (List.mem_cons_of_mem _ hc)
        · intro m hm f hf
          rcases List.mem_cons.mp hm with h | h
          · rw [h, hs] at hf
            exact Or.inr (by injection hf with hf; exact hf ▸ List.mem_cons_self _ _)
          · rcases cov m h f hf with hc | hc
            · rcases List.mem_cons.mp hc with hc | hc
              · exact Or.inr (hc ▸ List.mem_cons_self _ _)
              · exact Or.inl hc
            · exact Or.inr (List.mem_cons_of_mem _ hc)

/-! ## The candidate set -/

omit [DecidableEq Path] in
theorem mem_insertSorted {lt : Path → Path → Bool} {p q : Path} {l : List Path} :
    q ∈ insertSorted lt p l ↔ q = p ∨ q ∈ l := by
  induction l with
  | nil => simp [insertSorted]
  | cons x xs ih =>
    unfold insertSorted
    split_ifs with h1
    · simp
    · simp only [List.mem_cons, ih]
      tauto

omit [DecidableEq Path] in
theorem nodup_insertSorted {lt : Path → Path → Bool} {p : Path} {l : List Path}
    (hp : p ∉ l) (h : l.Nodup) : (insertSorted lt p l).Nodup := by
  induction l with
  | nil => simp [insertSorted]
  | cons x xs ih =>
    have hx := List.nodup_cons.mp h
    unfold insertSorted
    split_ifs with h1
    · exact List.nodup_cons.mpr ⟨hp, h⟩
    · refine List.nodup_cons.mpr ⟨?_, ih (fun hc => hp (List.mem_cons_of_mem _ hc)) hx.2⟩
      intro hc
      rcases mem_insertSorted.mp hc with hc | hc
      · exact hp (hc ▸ List.mem_cons_self _ _)
      · exact hx.1 hc

theorem mem_setInsert {lt : Path → Path → Bool} {p q : Path} {l : List Path} :
    q ∈ setInsert lt p l ↔ q = p ∨ q ∈ l := by
  unfold setInsert
  split_ifs with h
  · constructor
    · exact fun hq => Or.inr hq
    · rintro (hq | hq)
      · exact hq ▸ h
      · exact hq
  · exact mem_insertSorted

theorem nodup_setInsert {lt : Path → Path → Bool} {p : Path} {l : List Path}
    (h : l.Nodup) : (setInsert lt p l).Nodup := by
  unfold setInsert
  split_ifs with hp
  · exact h
  · exact nodup_insertSorted hp h

theorem mem_scanCandidates {env : Env Path} {base p : Path} :
    p ∈ scanCandidates env base ↔
      p ∈ env.recursive_directory_iterator base ∧ env.extension p = ".so" := by
  unfold scanCandidates
  have key : ∀ (l acc : List Path),
      p ∈ l.foldl (fun modsToLoad mod =>
          if env.extension mod = ".so" then setInsert env.pathLt mod modsToLoad
          else modsToLoad) acc ↔
        p ∈ acc ∨ (p ∈ l ∧ env.extension p = ".so") := by
    intro l
    induction l with
    | nil => intro acc; simp
    | cons x xs ih =>
      intro acc
      simp only [List.foldl_cons, ih, List.mem_cons]
      by_cases hx : env.extension x = ".so"
      · simp only [hx, if_true, mem_setInsert]
        constructor
        · rintro ((h | h) | ⟨h1, h2⟩)
          · exact Or.inr ⟨Or.inl h, h ▸ hx⟩
          · exact Or.inl h
          · exact Or.inr ⟨Or.inr h1, h2⟩
        · rintro (h | ⟨h1 | h1, h2⟩)
          · exact Or.inl (Or.inr h)
          · exact Or.inl (Or.inl h1)
          · exact Or.inr ⟨h1, h2⟩
      · simp only [hx, if_false]
        constructor
        · rintro (h | ⟨h1, h2⟩)
          · exact Or.inl h
          · exact Or.inr ⟨Or.inr h1, h2⟩
        · rintro (h | ⟨h1 | h1, h2⟩)
          · exact Or.inl h
          · exact absurd (h1 ▸ h2) hx
          · exact Or.inr ⟨h1, h2⟩
  simpa using key (env.recursive_directory_iterator base) []

theorem nodup_scanCandidates (env : Env Path) (base : Path) :
    (scanCandidates env base).Nodup := by
  unfold scanCandidates
  have key : ∀ (l acc : List Path), acc.Nodup →
      (l.foldl (fun modsToLoad mod =>
          if env.extension mod = ".so" then setInsert env.pathLt mod modsToLoad
          else modsToLoad) acc).Nodup := by
    intro l
    induction l with
    | nil => intro acc h; exact h
    | cons x xs ih =>
      intro acc h
      simp only [List.foldl_cons]
      by_cases hx : env.extension x = ".so"
      · simp only [hx, if_true]
        exact ih _ (nodup_setInsert h)
      · simp only [hx, if_false]
        exact ih _ h
  exact key _ [] List.nodup_nil

/-! ## One scan -/

theorem scan_spec (env : Env Path) (fuel : Nat) (base : Path) (g : Globals Path)
    (hex : env.fsExists base = true) (hdir : env.is_directory base = true)
    (hfuel : (scanCandidates env base).length < fuel) :
    ∃ order, loadModsFromDirectory env fuel base g = some
        { mods := g.mods ++ order.filterMap env.dlopen
          set := orderSet env order g.set
          trace := g.trace ++ (orderEvents env order g.set ++
            execEvents env (g.mods ++ order.filterMap env.dlopen) []) } ∧
      order.Nodup ∧ (∀ p, p ∈ order ↔ p ∈ scanCandidates env base) ∧
      (Acyclic env (scanCandidates env base) →
        order.Pairwise (fun a b => b ∉ resolvedDeps env a)) := by
  obtain ⟨order, e, nd, mem, topo⟩ :=
    drain_spec env (scanCandidates env base) fuel fuel (scanCandidates env base) g hfuel
      (Nat.le_of_lt hfuel) (fun _ h => h)
  refine ⟨order, ?_, nd (nodup_scanCandidates env base), mem, topo⟩
  simp only [loadModsFromDirectory, hex, hdir, Bool.and_self, if_true, e, execLoop_eq,
    runOrder_eq, List.append_assoc]

/-! ## Positions in the load order -/

omit [DecidableEq Path] in
theorem acyclic_of_rank {env : Env Path} {C : List Path} (rank : Path → Nat)
    (h : ∀ m ∈ C, ∀ d ∈ resolvedDeps env m, d ∈ C → rank d < rank m) : Acyclic env C := by
  have key : ∀ x y, Relation.TransGen (depRel env C) x y → rank x < rank y := by
    intro x y hxy
    induction hxy with
    | single hr => exact h _ hr.2.1 _ hr.2.2 hr.1
    | tail _ hr ih => exact lt_trans ih (h _ hr.2.1 _ hr.2.2 hr.1)
  intro x hx
  exact lt_irrefl _ (key x x hx)

omit [DecidableEq Path] in
theorem before_of_topo {env : Env Path} {o1 o2 : List Path} {m d : Path}
    (htopo : (o1 ++ m :: o2).Pairwise (fun a b => b ∉ resolvedDeps env a))
    (hd : d ∈ o1 ++ m :: o2) (hdep : d ∈ resolvedDeps env m) (hne : d ≠ m) : d ∈ o1 := by
  rcases List.mem_append.mp hd with h | h
  · exact h
  · rcases List.mem_cons.mp h with h | h
    · exact absurd h hne
    · have hp := (List.pairwise_append.mp htopo).2.1
      exact absurd hdep (List.rel_of_pairwise_cons hp h)

omit [DecidableEq Path] in
theorem before_of_transGen {env : Env Path} {C order : List Path}
    (htopo : order.Pairwise (fun a b => b ∉ resolvedDeps env a))
    (hall : ∀ p ∈ C, p ∈ order) (hac : Acyclic env C) {d m : Path}
    (h : Relation.TransGen (depRel env C) d m) :
    ∀ o1 o2, order = o1 ++ m :: o2 → d ∈ o1 := by
  have step : ∀ {a b : Path}, depRel env C a b → ∀ o1 o2, order = o1 ++ b :: o2 → a ∈ o1 := by
    intro a b hr o1 o2 ho
    have hne : a ≠ b := fun hc => hac b (Relation.TransGen.single (hc ▸ hr))
    exact before_of_topo (ho ▸ htopo) (ho ▸ hall a hr.1) hr.2.2 hne
  induction h with
  | single hr => exact step hr
  | @tail b c _ hr ih =>
    intro o1 o2 ho
    obtain ⟨o1a, o1b, hs⟩ := List.append_of_mem (step hr o1 o2 ho)
    have := ih o1a (o1b ++ c :: o2) (by rw [ho, hs]; simp)
    rw [hs]
    exact List.mem_append.mpr (Or.inl this)

/-! ## Splitting the trace of a scan at an event -/

omit [DecidableEq Path] in
theorem split_load {env : Env Path} {order : List Path} {s s' : List FnPtr}
    {mods : List Handle} {pre post : List (Event Path)} {m : Path}
    (h : orderEvents env order s ++ execEvents env mods s' = pre ++ Event.load m :: post) :
    ∃ o1 o2, order = o1 ++ m :: o2 ∧ pre = orderEvents env o1 s := by
  rcases append_eq_split h with ⟨post1, h1, _⟩ | ⟨pre2, _, h2⟩
  · obtain ⟨o1, m', o2, a, b, ho, hs, hp⟩ := orderEvents_split h1
    rcases selfEvents_split hs with ⟨he, ha⟩ |
      ⟨_, _, ⟨he, _⟩ | ⟨_, _, he, _⟩⟩
    · injection he with he
      subst he ha
      exact ⟨o1, o2, ho, by simpa using hp⟩
    · exact Event.noConfusion he
    · exact Event.noConfusion he
  · have hm : Event.load m ∈ execEvents env mods s' := by rw [h2]; simp
    obtain ⟨_, _, he, _⟩ := mem_execEvents hm
    exact Event.noConfusion he

omit [DecidableEq Path] in
theorem split_init {env : Env Path} {order : List Path} {s s' : List FnPtr}
    {mods : List Handle} {pre post : List (Event Path)} {m : Path} {f : FnPtr}
    (h : orderEvents env order s ++ execEvents env mods s' = pre ++ Event.init m f :: post) :
    ∃ o1 o2 mod, order = o1 ++ m :: o2 ∧ pre = orderEvents env o1 s ++ [Event.load m] ∧
      env.dlopen m = some mod ∧ env.dlsym mod "mod_init" = some f ∧
      f ∉ orderSet env o1 s := by
  rcases append_eq_split h with ⟨post1, h1, _⟩ | ⟨pre2, _, h2⟩
  · obtain ⟨o1, m', o2, a, b, ho, hs, hp⟩ := orderEvents_split h1
    rcases selfEvents_split hs with ⟨he, _⟩ |
      ⟨ha, _, ⟨he, _⟩ | ⟨mod, k, he, hd, hk, hn⟩⟩
    · exact Event.noConfusion he
    · exact Event.noConfusion he
    · injection he with he1 he2
      subst he1 he2 ha
      exact ⟨o1, o2, mod, ho, hp, hd, hk, hn⟩
  · have hm : Event.init m f ∈ execEvents env mods s' := by rw [h2]; simp
    obtain ⟨_, _, he, _⟩ := mem_execEvents hm
    exact Event.noConfusion he

omit [DecidableEq Path] in
theorem mem_orderEvents_fail {env : Env Path} {order : List Path} {q : Path} :
    ∀ {s : List FnPtr}, Event.fail q ∈ orderEvents env order s ↔
      q ∈ order ∧ env.dlopen q = none := by
  have self : ∀ (p : Path) (s : List FnPtr),
      Event.fail q ∈ selfEvents env p s ↔ q = p ∧ env.dlopen q = none := by
    intro p s
    unfold selfEvents
    cases hd : env.dlopen p with
    | none =>
      simp only [List.mem_cons, List.mem_singleton, Event.fail.injEq, false_or,
        List.not_mem_nil, or_false, reduceCtorEq]
      constructor
      · intro h; exact ⟨h, h ▸ hd⟩
      · exact fun h => h.1
    | some mod =>
      have hne : ∀ h : q = p, env.dlopen q ≠ none := by
        intro h; rw [h, hd]; simp
      cases hs : env.dlsym mod "mod_init" with
      | none =>
        simp only [hs, List.mem_cons, reduceCtorEq, List.not_mem_nil, or_false, false_iff]
        exact fun h => hne h.1 h.2
      | some f =>
        by_cases hf : f ∈ s
        · simp only [hs, hf, if_true, List.mem_cons, reduceCtorEq, List.not_mem_nil,
            or_false, false_iff]
          exact fun h => hne h.1 h.2
        · simp only [hs, hf, if_false, List.mem_cons, reduceCtorEq, List.not_mem_nil,
            or_false, false_iff]
          exact fun h => hne h.1 h.2
  induction order with
  | nil => intro s; simp [orderEvents]
  | cons p ps ih =>
    intro s
    simp only [orderEvents, List.mem_append, self, ih, List.mem_cons]
    constructor
    · rintro (⟨h1, h2⟩ | ⟨h1, h2⟩)
      · exact ⟨Or.inl h1, h2⟩
      · exact ⟨Or.inr h1, h2⟩
    · rintro ⟨h1 | h1, h2⟩
      · exact Or.inl ⟨h1, h2⟩
      · exact Or.inr ⟨h1, h2⟩

omit [DecidableEq Path] in
theorem initCalls_execEvents (env : Env Path) (mods : List Handle) :
    ∀ s, initCalls (execEvents env mods s : List (Event Path)) = [] := by
  induction mods with
  | nil => intro s; rfl
  | cons mod rest ih =>
    intro s
    unfold execEvents
    cases hs : env.dlsym mod "mod_exec" with
    | none => simp [ih]
    | some f => by_cases hf : f ∈ s <;> simp [hf, ih, initCalls]

omit [DecidableEq Path] in
theorem execCalls_orderEvents (env : Env Path) (order : List Path) :
    ∀ s, execCalls (orderEvents env order s) = [] := by
  have self : ∀ (p : Path) (s : List FnPtr), execCalls (selfEvents env p s) = [] := by
    intro p s
    unfold selfEvents
    cases env.dlopen p with
    | none => simp [execCalls]
    | some mod =>
      cases hs : env.dlsym mod "mod_init" with
      | none => simp [hs, execCalls]
      | some f => by_cases hf : f ∈ s <;> simp [hs, hf, execCalls]
  induction order with
  | nil => intro s; rfl
  | cons p ps ih => intro s; simp [orderEvents, execCalls_append, self, ih]

omit [DecidableEq Path] in
theorem loadOrder_execEvents (env : Env Path) (mods : List Handle) :
    ∀ s, loadOrder (execEvents env mods s : List (Event Path)) = [] := by
  induction mods with
  | nil => intro s; rfl
  | cons mod rest ih =>
    intro s
    unfold execEvents
    cases hs : env.dlsym mod "mod_exec" with
    | none => simp [ih]
    | some f => by_cases hf : f ∈ s <;> simp [hf, ih, loadOrder]

/-! ## The budget does not influence the result -/

theorem forDeps_mono (env : Env Path)
    (rec1 rec2 : Path → List Path → Globals Path → Option (List Path × Globals Path))
    (hrec : ∀ p o g r, rec1 p o g = some r → rec2 p o g = some r) (path : Path) :
    ∀ (deps : List String) (others : List Path) (g : Globals Path) r,
      forDeps env rec1 path deps others g = some r →
      forDeps env rec2 path deps others g = some r := by
  intro deps
  induction deps with
  | nil => intro others g r h; exact h
  | cons dep deps ih =>
    intro others g r h
    unfold forDeps at h ⊢
    by_cases hmem : env.append (env.parent_path path) dep ∈ others
    · simp only [hmem, if_true] at h ⊢
      cases h1 : rec1 (env.append (env.parent_path path) dep)
          (erase (env.append (env.parent_path path) dep) others) g with
      | none => rw [h1] at h; exact Option.noConfusion h
      | some r1 =>
        rw [h1] at h
        rw [hrec _ _ _ _ h1]
        exact ih _ _ _ h
    · simp only [hmem, if_false] at h ⊢
      exact ih _ _ _ h

theorem loadMods_succ (env : Env Path) :
    ∀ (fuel : Nat) (path : Path) (others : List Path) (g : Globals Path) r,
      loadMods env fuel path others g = some r →
      loadMods env (fuel + 1) path others g = some r := by
  intro fuel
  induction fuel with
  | zero => intro path others g r h; exact Option.noConfusion h
  | succ fuel ih =>
    intro path others g r h
    simp only [loadMods] at h ⊢
    cases h1 : forDeps env (loadMods env fuel) path (env.getDependencies path) others g with
    | none => rw [h1] at h; exact Option.noConfusion h
    | some r1 =>
      rw [h1] at h
      have h2 := forDeps_mono env (loadMods env fuel) (loadMods env (fuel + 1)) ih path
        _ _ _ _ h1
      simp only [loadMods] at h2
      rw [h2]
      exact h

theorem loadMods_mono (env : Env Path) {fuel fuel' : Nat} (hle : fuel ≤ fuel')
    {path : Path} {others : List Path} {g : Globals Path} {r : List Path × Globals Path}
    (h : loadMods env fuel path others g = some r) :
    loadMods env fuel' path others g = some r := by
  induction hle with
  | refl => exact h
  | step _ ih => exact loadMods_succ env _ _ _ _ _ ih

theorem drain_mono (env : Env Path) {depth depth' : Nat} (hd : depth ≤ depth') :
    ∀ (n n' : Nat), n ≤ n' → ∀ (others : List Path) (g r : Globals Path),
      drain env depth n others g = some r → drain env depth' n' others g = some r := by
  intro n
  induction n with
  | zero =>
    intro n' _ others g r h
    cases others with
    | nil =>
      cases n' with
      | zero => simpa [drain] using h
      | succ k => simpa [drain] using h
    | cons p ps => simp [drain] at h
  | succ n ih =>
    intro n' hn others g r h
    cases others with
    | nil =>
      cases n' with
      | zero => simpa [drain] using h
      | succ k => simpa [drain] using h
    | cons p ps =>
      cases n' with
      | zero => exact absurd hn (Nat.not_succ_le_zero _)
      | succ k =>
        simp only [drain] at h ⊢
        cases h1 : loadMods env depth p ps g with
        | none => rw [h1] at h; exact Option.noConfusion h
        | some r1 =>
          rw [h1] at h
          rw [loadMods_mono env hd h1]
          exact ih k (Nat.le_of_succ_le_succ hn) _ _ _ h

theorem loadModsFromDirectory_mono (env : Env Path) {fuel fuel' : Nat} (hle : fuel ≤ fuel')
    (base : Path) (g r : Globals Path)
    (h : loadModsFromDirectory env fuel base g = some r) :
    loadModsFromDirectory env fuel' base g = some r := by
  unfold loadModsFromDirectory at h ⊢
  by_cases hg : (env.fsExists base && env.is_directory base) = true
  · simp only [hg, if_true] at h ⊢
    cases h1 : drain env fuel fuel (scanCandidates env base) g with
    | none => rw [h1] at h; exact Option.noConfusion h
    | some g1 =>
      rw [h1] at h
      rw [drain_mono env hle fuel fuel' hle _ _ _ h1]
      exact h
  · simp only [hg] at h ⊢
    exact h

/-! # The claims -/

theorem loadModsFromDirectory_missing_root (env : Env Path) (fuel : Nat) (base : Path)
    (g : Globals Path) (h : (env.fsExists base && env.is_directory base) = false) :
    loadModsFromDirectory env fuel base g = some g := by
  simp [loadModsFromDirectory, h]

/-- Claim C1: in one scan over an acyclic dependency relation, whenever a candidate
`d` is a resolved dependency of a candidate `m`, both are load-attempted and every
load attempt of `m` is preceded by a load attempt of `d`. -/
theorem load_order_respects_dependencies (env : Env Path) (fuel : Nat) (base : Path)
    (g : Globals Path) (hex : env.fsExists base = true) (hdir : env.is_directory base = true)
    (hfuel : (scanCandidates env base).length < fuel)
    (hac : Acyclic env (scanCandidates env base)) :
    ∃ g' new, loadModsFromDirectory env fuel base g = some g' ∧ g'.trace = g.trace ++ new ∧
      ∀ d m, depRel env (scanCandidates env base) d m →
        Event.load d ∈ new ∧ Event.load m ∈ new ∧
          ∀ pre post, new = pre ++ Event.load m :: post → Event.load d ∈ pre := by
  obtain ⟨order, e, _, mem, topo⟩ := scan_spec env fuel base g hex hdir hfuel
  refine ⟨_, _, e, rfl, ?_⟩
  intro d m hr
  refine ⟨List.mem_append.mpr (Or.inl (mem_orderEvents_load.mpr ((mem d).mpr hr.1))),
    List.mem_append.mpr (Or.inl (mem_orderEvents_load.mpr ((mem m).mpr hr.2.1))), ?_⟩
  intro pre post hsplit
  obtain ⟨o1, o2, ho, hp⟩ := split_load hsplit
  rw [hp]
  exact mem_orderEvents_load.mpr
    (before_of_transGen (topo hac) (fun p hp => (mem p).mpr hp) hac
      (Relation.TransGen.single hr) o1 o2 ho)

/-- Claim C2: in one scan, whatever the dependency function, every candidate gets
exactly one load attempt, only candidates are load-attempted, and the only
diagnostic is that of a failed `dlopen`. -/
theorem each_candidate_loaded_once (env : Env Path) (fuel : Nat) (base : Path)
    (g : Globals Path) (hex : env.fsExists base = true) (hdir : env.is_directory base = true)
    (hfuel : (scanCandidates env base).length < fuel) :
    ∃ g' new, loadModsFromDirectory env fuel base g = some g' ∧ g'.trace = g.trace ++ new ∧
      (∀ p ∈ scanCandidates env base, new.count (Event.load p) = 1) ∧
      (∀ p, Event.load p ∈ new → p ∈ scanCandidates env base) ∧
      (∀ p, Event.fail p ∈ new → env.dlopen p = none) := by
  obtain ⟨order, e, nd, mem, _⟩ := scan_spec env fuel base g hex hdir hfuel
  refine ⟨_, _, e, rfl, ?_, ?_, ?_⟩
  · intro p hp
    rw [count_load, loadOrder_append, loadOrder_orderEvents, loadOrder_execEvents,
      List.append_nil]
    exact List.count_eq_one_of_mem nd ((mem p).mpr hp)
  · intro p hp
    rcases List.mem_append.mp hp with h | h
    · exact (mem p).mp (mem_orderEvents_load.mp h)
    · obtain ⟨_, _, he, _⟩ := mem_execEvents h
      exact Event.noConfusion he
  · intro p hp
    rcases List.mem_append.mp hp with h | h
    · exact (mem_orderEvents_fail.mp h).2
    · obtain ⟨_, _, he, _⟩ := mem_execEvents h
      exact Event.noConfusion he

/-- Claim C4: in a scan started from the initial process state, no entry point is
called twice as `mod_init` and none twice as `mod_exec`, and the init hook and the
exec hook of every successfully loaded candidate are each called exactly once,
however many modules resolve to the same address. -/
theorem hooks_called_once_per_scan (env : Env Path) (fuel : Nat) (base : Path)
    (hex : env.fsExists base = true) (hdir : env.is_directory base = true)
    (hfuel : (scanCandidates env base).length < fuel) :
    ∃ g', loadModsFromDirectory env fuel base Globals.initial = some g' ∧
      (initCalls g'.trace).Nodup ∧ (execCalls g'.trace).Nodup ∧
      ∀ p ∈ scanCandidates env base, ∀ mod, env.dlopen p = some mod →
        (∀ f, env.dlsym mod "mod_init" = some f → (initCalls g'.trace).count f = 1) ∧
        (∀ f, env.dlsym mod "mod_exec" = some f → (execCalls g'.trace).count f = 1) := by
  obtain ⟨order, e, _, mem, _⟩ := scan_spec env fuel base Globals.initial hex hdir hfuel
  obtain ⟨ndi, _, covi⟩ := initCalls_orderEvents env order []
  obtain ⟨ndx, _, covx⟩ :=
    execCalls_execEvents env (order.filterMap env.dlopen) []
  refine ⟨_, e, ?_, ?_, ?_⟩
  · simpa [Globals.initial, initCalls_append, initCalls_execEvents] using ndi
  · simpa [Globals.initial, execCalls_append, execCalls_orderEvents] using ndx
  · intro p hp mod hmod
    constructor
    · intro f hf
      have hset : f ∈ orderSet env order [] :=
        mem_orderSet.mpr (Or.inr ⟨p, (mem p).mpr hp, mod, hmod, hf⟩)
      have hin : f ∈ initCalls (orderEvents env order []) := by
        rcases covi f hset with h | h
        · exact absurd h (List.not_mem_nil _)
        · exact h
      have := List.count_eq_one_of_mem ndi hin
      simpa [Globals.initial, initCalls_append, initCalls_execEvents] using this
    · intro f hf
      have hin : f ∈ execCalls
          (execEvents env (order.filterMap env.dlopen) [] : List (Event Path)) := by
        rcases covx mod (List.mem_filterMap.mpr ⟨p, (mem p).mpr hp, hmod⟩) f hf with h | h
        · exact absurd h (List.not_mem_nil _)
        · exact h
      have := List.count_eq_one_of_mem ndx hin
      simpa [Globals.initial, execCalls_append, execCalls_orderEvents] using this

/-- Claim C5: the load phase of a scan leaves the registry equal to the registry
before it followed by the handles of the candidates whose `dlopen` succeeded, in
load-attempt order; every candidate is load-attempted exactly once, whether or not
other candidates fail, and a candidate whose `dlopen` fails has no init hook
called. -/
theorem registry_after_load_phase (env : Env Path) (depth n : Nat) (cands : List Path)
    (g : Globals Path) (hnd : cands.Nodup) (hdepth : cands.length < depth)
    (hn : cands.length ≤ n) :
    ∃ g1 new, drain env depth n cands g = some g1 ∧ g1.trace = g.trace ++ new ∧
      g1.mods = g.mods ++ (loadOrder new).filterMap env.dlopen ∧
      (loadOrder new).Nodup ∧ (∀ p, p ∈ loadOrder new ↔ p ∈ cands) ∧
      (∀ p, env.dlopen p = none → ∀ f, Event.init p f ∉ new) := by
  obtain ⟨order, e, nd, mem, _⟩ := drain_spec env cands depth n cands g hdepth hn (fun _ h => h)
  rw [runOrder_eq] at e
  refine ⟨_, orderEvents env order g.set, e, rfl, ?_, ?_, ?_, ?_⟩
  · rw [loadOrder_orderEvents]
  · rw [loadOrder_orderEvents]; exact nd hnd
  · rw [loadOrder_orderEvents]; exact mem
  · intro p hp f hf
    obtain ⟨pre, post, hsplit⟩ := List.append_of_mem hf
    have hsplit' : orderEvents env order g.set ++ execEvents env [] []
        = pre ++ Event.init p f :: post := by
      rw [← hsplit]; simp [execEvents]
    obtain ⟨_, _, mod, _, _, hd, _, _⟩ := split_init hsplit'
    rw [hp] at hd
    exact Option.noConfusion hd

/-- Claim C6: for every pending set and every dependency function, cyclic or not,
`loadMods` returns within a recursion depth of the size of the pending set plus
one and leaves a pending set that is no larger, the drain loop returns, and erasing
a pending name before a recursive call makes the pending set strictly smaller. -/
theorem loadMods_terminates (env : Env Path) (fuel : Nat) (path : Path) (others : List Path)
    (g : Globals Path) (hfuel : others.length < fuel) :
    (∃ others' g', loadMods env fuel path others g = some (others', g') ∧
        others'.length ≤ others.length) ∧
      (∃ g', drain env fuel fuel others g = some g') ∧
      (∀ name ∈ others, (erase name others).length < others.length) := by
  refine ⟨?_, ?_, fun name h => length_erase_lt h⟩
  · obtain ⟨others', order, e, v⟩ :=
      loadMods_spec env (path :: others) fuel path others g hfuel
        (fun p hp => List.mem_cons_of_mem _ hp) (List.mem_cons_self _ _)
    exact ⟨others', _, e, v.sub.length_le⟩
  · obtain ⟨order, e, _⟩ :=
      drain_spec env others fuel fuel others g hfuel (Nat.le_of_lt hfuel) (fun _ h => h)
    exact ⟨_, e⟩

/-- Claim C7, as amended: a module on a dependency cycle is not reported; it gets
exactly one ordinary load attempt, it is registered when its own `dlopen` succeeds,
and it gets the load-failure diagnostic exactly when its own `dlopen` fails. -/
theorem cycle_members_load_normally (env : Env Path) (fuel : Nat) (base : Path)
    (g : Globals Path) (hex : env.fsExists base = true) (hdir : env.is_directory base = true)
    (hfuel : (scanCandidates env base).length < fuel) (m : Path)
    (hcyc : Relation.TransGen (depRel env (scanCandidates env base)) m m) :
    ∃ g' new, loadModsFromDirectory env fuel base g = some g' ∧ g'.trace = g.trace ++ new ∧
      new.count (Event.load m) = 1 ∧
      (Event.fail m ∈ new ↔ env.dlopen m = none) ∧
      (∀ mod, env.dlopen m = some mod → mod ∈ g'.mods) := by
  obtain ⟨order, e, nd, mem, _⟩ := scan_spec env fuel base g hex hdir hfuel
  have hm : m ∈ order := by
    refine (mem m).mpr ?_
    cases hcyc with
    | single hr => exact hr.2.1
    | tail _ hr => exact hr.2.1
  refine ⟨_, _, e, rfl, ?_, ?_, ?_⟩
  · rw [count_load, loadOrder_append, loadOrder_orderEvents, loadOrder_execEvents,
      List.append_nil]
    exact List.count_eq_one_of_mem nd hm
  · constructor
    · intro hp
      rcases List.mem_append.mp hp with h | h
      · exact (mem_orderEvents_fail.mp h).2
      · obtain ⟨_, _, he, _⟩ := mem_execEvents h
        exact Event.noConfusion he
    · intro hd
      exact List.mem_append.mpr (Or.inl (mem_orderEvents_fail.mpr ⟨hm, hd⟩))
  · intro mod hd
    exact List.mem_append.mpr (Or.inr (List.mem_filterMap.mpr ⟨m, hm, hd⟩))

/-- Claim C9, as amended: the init hook is looked up under the symbol `mod_init` and
the exec hook under the symbol `mod_exec`. Every candidate whose `dlopen` succeeds
is registered without a diagnostic, whatever it exports; its `mod_init` entry
point, if any, was recorded before the scan or is called in it, and its `mod_exec`
entry point, if any, is called in the exec phase of the scan. -/
theorem hooks_looked_up_by_name (env : Env Path) (fuel : Nat) (base : Path)
    (g : Globals Path) (hex : env.fsExists base = true) (hdir : env.is_directory base = true)
    (hfuel : (scanCandidates env base).length < fuel) :
    ∃ g' new, loadModsFromDirectory env fuel base g = some g' ∧ g'.trace = g.trace ++ new ∧
      ∀ p ∈ scanCandidates env base, ∀ mod, env.dlopen p = some mod →
        mod ∈ g'.mods ∧ Event.fail p ∉ new ∧
        (∀ f, env.dlsym mod "mod_init" = some f → f ∈ g.set ∨ ∃ q, Event.init q f ∈ new) ∧
        (∀ f, env.dlsym mod "mod_exec" = some f → ∃ h, Event.exec h f ∈ new) := by
  obtain ⟨order, e, _, mem, _⟩ := scan_spec env fuel base g hex hdir hfuel
  refine ⟨_, _, e, rfl, ?_⟩
  intro p hp mod hmod
  have hreg : mod ∈ g.mods ++ order.filterMap env.dlopen :=
    List.mem_append.mpr (Or.inr (List.mem_filterMap.mpr ⟨p, (mem p).mpr hp, hmod⟩))
  refine ⟨hreg, ?_, ?_, ?_⟩
  · intro hc
    rcases List.mem_append.mp hc with h | h
    · have := (mem_orderEvents_fail.mp h).2
      rw [hmod] at this
      exact Option.noConfusion this
    · obtain ⟨_, _, he, _⟩ := mem_execEvents h
      exact Event.noConfusion he
  · intro f hf
    have hset : f ∈ orderSet env order g.set :=
      mem_orderSet.mpr (Or.inr ⟨p, (mem p).mpr hp, mod, hmod, hf⟩)
    rcases (initCalls_orderEvents env order g.set).2.2 f hset with h | h
    · exact Or.inl h
    · obtain ⟨q, hq⟩ := mem_initCalls.mp h
      exact Or.inr ⟨q, List.mem_append.mpr (Or.inl hq)⟩
  · intro f hf
    rcases (execCalls_execEvents env (g.mods ++ order.filterMap env.dlopen) []).2.2 mod hreg f hf with h | h
    · exact absurd h (List.not_mem_nil _)
    · obtain ⟨h', hq⟩ := mem_execCalls.mp h
      exact ⟨h', List.mem_append.mpr (Or.inr hq)⟩
/-! # Concrete runs -/

/-- The dependency graph of the scenario world has no cycle. -/
theorem scenario_acyclic :
    Acyclic scenarioWorld.env (scanCandidates scenarioWorld.env "core") :=
  acyclic_of_rank (demoRank scenarioWorld) (by decide)

/-- Claim C1 in the scenario world: `B` is load-attempted before `A` and before `C`. -/
theorem load_order_respects_dependencies_witness :
    (scenarioWorld.env.fsExists "core" = true ∧ scenarioWorld.env.is_directory "core" = true ∧
      (scanCandidates scenarioWorld.env "core").length < 4 ∧
      Acyclic scenarioWorld.env (scanCandidates scenarioWorld.env "core")) ∧
    ∃ g' new, loadModsFromDirectory scenarioWorld.env 4 "core" Globals.initial = some g' ∧
      g'.trace = new ∧
      (∀ pre post, new = pre ++ Event.load "core/A.so" :: post →
        Event.load "core/B.so" ∈ pre) ∧
      (∀ pre post, new = pre ++ Event.load "core/C.so" :: post →
        Event.load "core/B.so" ∈ pre) :=
  ⟨⟨by decide, by decide, by decide, scenario_acyclic⟩,
    (load_order_respects_dependencies scenarioWorld.env 4 "core" Globals.initial
      (by decide) (by decide) (by decide) scenario_acyclic).elim
      (fun g' h => h.elim (fun new h =>
        ⟨g', new, h.1, h.2.1,
          (h.2.2 "core/B.so" "core/A.so" ⟨by decide, by decide, by decide⟩).2.2,
          (h.2.2 "core/B.so" "core/C.so" ⟨by decide, by decide, by decide⟩).2.2⟩))⟩

/-- Claim C2 in the diamond world, where `D` is a dependency of both `B` and `C`
and `A` names the undiscovered `Z.so`: `D` is load-attempted once. -/
theorem each_candidate_loaded_once_witness :
    (diamondWorld.env.fsExists "core" = true ∧ diamondWorld.env.is_directory "core" = true ∧
      (scanCandidates diamondWorld.env "core").length < 5 ∧
      "core/D.so" ∈ scanCandidates diamondWorld.env "core") ∧
    ∃ g' new, loadModsFromDirectory diamondWorld.env 5 "core" Globals.initial = some g' ∧
      g'.trace = (Globals.initial : Globals String).trace ++ new ∧
      (∀ p ∈ scanCandidates diamondWorld.env "core", new.count (Event.load p) = 1) ∧
      (∀ p, Event.load p ∈ new → p ∈ scanCandidates diamondWorld.env "core") ∧
      (∀ p, Event.fail p ∈ new → diamondWorld.env.dlopen p = none) :=
  ⟨⟨by decide, by decide, by decide, by decide⟩,
    each_candidate_loaded_once diamondWorld.env 5 "core" Globals.initial
      (by decide) (by decide) (by decide)⟩

/-- Claim C4 in the scenario world, where `A` and `C` share both hook addresses. -/
theorem hooks_called_once_per_scan_witness :
    (scenarioWorld.env.fsExists "core" = true ∧ scenarioWorld.env.is_directory "core" = true ∧
      (scanCandidates scenarioWorld.env "core").length < 4) ∧
    ∃ g', loadModsFromDirectory scenarioWorld.env 4 "core" Globals.initial = some g' ∧
      (initCalls g'.trace).Nodup ∧ (execCalls g'.trace).Nodup ∧
      ∀ p ∈ scanCandidates scenarioWorld.env "core", ∀ mod,
        scenarioWorld.env.dlopen p = some mod →
        (∀ f, scenarioWorld.env.dlsym mod "mod_init" = some f →
          (initCalls g'.trace).count f = 1) ∧
        (∀ f, scenarioWorld.env.dlsym mod "mod_exec" = some f →
          (execCalls g'.trace).count f = 1) :=
  ⟨⟨by decide, by decide, by decide⟩,
    hooks_called_once_per_scan scenarioWorld.env 4 "core" (by decide) (by decide) (by decide)⟩

/-- Claim C5 in the failing world, where the dependency `B` of `A` fails to load. -/
theorem registry_after_load_phase_witness :
    ((["core/A.so", "core/B.so", "core/x.so"] : List String).Nodup ∧
      (["core/A.so", "core/B.so", "core/x.so"] : List String).length < 4 ∧
      (["core/A.so", "core/B.so", "core/x.so"] : List String).length ≤ 3) ∧
    ∃ g1 new, drain failingWorld.env 4 3 ["core/A.so", "core/B.so", "core/x.so"]
        Globals.initial = some g1 ∧
      g1.trace = (Globals.initial : Globals String).trace ++ new ∧
      g1.mods = (Globals.initial : Globals String).mods
        ++ (loadOrder new).filterMap failingWorld.env.dlopen ∧
      (loadOrder new).Nodup ∧
      (∀ p, p ∈ loadOrder new ↔ p ∈ ["core/A.so", "core/B.so", "core/x.so"]) ∧
      (∀ p, failingWorld.env.dlopen p = none → ∀ f, Event.init p f ∉ new) :=
  ⟨⟨by decide, by decide, by decide⟩,
    registry_after_load_phase failingWorld.env 4 3 ["core/A.so", "core/B.so", "core/x.so"]
      Globals.initial (by decide) (by decide) (by decide)⟩

/-- Claim C6 in the cyclic world: `loadMods` on `A` with `B` pending returns at depth 2. -/
theorem loadMods_terminates_witness :
    ((["core/B.so"] : List String).length < 2) ∧
    (∃ others' g', loadMods cyclicWorld.env 2 "core/A.so" ["core/B.so"] Globals.initial
        = some (others', g') ∧ others'.length ≤ (["core/B.so"] : List String).length) ∧
      (∃ g', drain cyclicWorld.env 2 2 ["core/B.so"] Globals.initial = some g') ∧
      (∀ name ∈ (["core/B.so"] : List String),
        (erase name ["core/B.so"]).length < (["core/B.so"] : List String).length) :=
  ⟨by decide,
    loadMods_terminates cyclicWorld.env 2 "core/A.so" ["core/B.so"] Globals.initial
      (by decide)⟩

/-- In the cyclic world `A` depends on itself through `B`. -/
theorem cyclic_cycle :
    Relation.TransGen (depRel cyclicWorld.env (scanCandidates cyclicWorld.env "core"))
      "core/A.so" "core/A.so" :=
  Relation.TransGen.tail
    (Relation.TransGen.single
      (show depRel cyclicWorld.env (scanCandidates cyclicWorld.env "core")
          "core/A.so" "core/B.so" from ⟨by decide, by decide, by decide⟩))
    (show depRel cyclicWorld.env (scanCandidates cyclicWorld.env "core")
        "core/B.so" "core/A.so" from ⟨by decide, by decide, by decide⟩)

/-- Claim C7, as amended, for module `A` of the cyclic world. -/
theorem cycle_members_load_normally_witness :
    (cyclicWorld.env.fsExists "core" = true ∧ cyclicWorld.env.is_directory "core" = true ∧
      (scanCandidates cyclicWorld.env "core").length < 3 ∧
      Relation.TransGen (depRel cyclicWorld.env (scanCandidates cyclicWorld.env "core"))
        "core/A.so" "core/A.so") ∧
    ∃ g' new, loadModsFromDirectory cyclicWorld.env 3 "core" Globals.initial = some g' ∧
      g'.trace = (Globals.initial : Globals String).trace ++ new ∧
      new.count (Event.load "core/A.so") = 1 ∧
      (Event.fail "core/A.so" ∈ new ↔ cyclicWorld.env.dlopen "core/A.so" = none) ∧
      (∀ mod, cyclicWorld.env.dlopen "core/A.so" = some mod → mod ∈ g'.mods) :=
  ⟨⟨by decide, by decide, by decide, cyclic_cycle⟩,
    cycle_members_load_normally cyclicWorld.env 3 "core" Globals.initial
      (by decide) (by decide) (by decide) "core/A.so" cyclic_cycle⟩

/-- Claim C9, as amended, in the scenario world. -/
theorem hooks_looked_up_by_name_witness :
    (scenarioWorld.env.fsExists "core" = true ∧ scenarioWorld.env.is_directory "core" = true ∧
      (scanCandidates scenarioWorld.env "core").length < 4) ∧
    ∃ g' new, loadModsFromDirectory scenarioWorld.env 4 "core" Globals.initial = some g' ∧
      g'.trace = (Globals.initial : Globals String).trace ++ new ∧
      ∀ p ∈ scanCandidates scenarioWorld.env "core", ∀ mod,
        scenarioWorld.env.dlopen p = some mod →
        mod ∈ g'.mods ∧ Event.fail p ∉ new ∧
        (∀ f, scenarioWorld.env.dlsym mod "mod_init" = some f →
          f ∈ (Globals.initial : Globals String).set ∨ ∃ q, Event.init q f ∈ new) ∧
        (∀ f, scenarioWorld.env.dlsym mod "mod_exec" = some f →
          ∃ h, Event.exec h f ∈ new) :=
  ⟨⟨by decide, by decide, by decide⟩,
    hooks_looked_up_by_name scenarioWorld.env 4 "core" Globals.initial
      (by decide) (by decide) (by decide)⟩

/-- Claim C3: the two scans of `Executor` call exec hooks twice. In the scenario
world the first scan loads `B`, `A` and `C` and calls the exec entry points 202 and
201; the second scan, of the empty directory `mods`, walks the whole registry with
a fresh local set and calls 202 and 201 again. -/
theorem exec_hooks_rerun_by_second_scan :
    Executor scenarioWorld.env 4 = some
      { mods := [2, 1, 3]
        set := [101, 102]
        trace := [Event.load "core/B.so", Event.init "core/B.so" 102,
          Event.load "core/A.so", Event.init "core/A.so" 101, Event.load "core/C.so",
          Event.exec 2 202, Event.exec 1 201, Event.exec 2 202, Event.exec 1 201] } := by
  decide

/-- Claim C7, as stated, fails: with `A`(deps: `B`) and `B`(deps: `A`) both
discovered, the scan loads `B` and then `A`, registers both and calls both init
hooks; no diagnostic is issued. -/
theorem cycle_not_reported :
    (depRel cyclicWorld.env (scanCandidates cyclicWorld.env "core") "core/B.so" "core/A.so" ∧
      depRel cyclicWorld.env (scanCandidates cyclicWorld.env "core") "core/A.so" "core/B.so") ∧
    loadModsFromDirectory cyclicWorld.env 3 "core" Globals.initial = some
      { mods := [2, 1]
        set := [101, 102]
        trace := [Event.load "core/B.so", Event.init "core/B.so" 102,
          Event.load "core/A.so", Event.init "core/A.so" 101] } :=
  ⟨⟨⟨by decide, by decide, by decide⟩, ⟨by decide, by decide, by decide⟩⟩, by decide⟩

/-- Claim C9, as stated, fails: a module that exports `module_init` and
`module_exec` is loaded and registered, and neither function is called. -/
theorem module_init_not_looked_up :
    moduleNamedWorld.env.dlsym 1 "module_init" = some 101 ∧
    moduleNamedWorld.env.dlsym 1 "module_exec" = some 201 ∧
    loadModsFromDirectory moduleNamedWorld.env 2 "core" Globals.initial = some
      { mods := [1], set := [], trace := [Event.load "core/A.so"] } := by
  decide

/-- Claim C10: the scan does not test for regular files. The directory
`core/x.so` becomes a candidate and gets a load attempt, which fails. -/
theorem directory_becomes_candidate :
    failingWorld.env.is_regular_file "core/x.so" = false ∧
    failingWorld.env.is_directory "core/x.so" = true ∧
    scanCandidates failingWorld.env "core" = ["core/A.so", "core/B.so", "core/x.so"] ∧
    loadModsFromDirectory failingWorld.env 4 "core" Globals.initial = some
      { mods := [1]
        set := [101]
        trace := [Event.load "core/B.so", Event.fail "core/B.so",
          Event.load "core/A.so", Event.init "core/A.so" 101,
          Event.load "core/x.so", Event.fail "core/x.so", Event.exec 1 201] } := by
  decide

end BDSMLoader
